import Mathlib

/-!
Verification of the PyPI snapshot source (`src/pypi.rs`).

The development embeds the pure logic of the source file:

* the per-package version-retention filter `truncate_to_recent`;
* the snapshot assembler's base-prefix validation and stripping;
* the transfer resolver `get_object`;
* the per-package failure recovery around the fan-out;
* the debug-mode byte-slice truncation of the raw index document.

The `Version` type and its parser live in `python_version.rs`, which is not
part of the sources at hand; they are modelled from the specification
(totally ordered versions carrying a stability flag, extracted from
`<name>-<version><suffix>.<ext>` filenames).
-/

/-- Modelled from the spec: `Version` (from `python_version.rs`, not in the
sources at hand) is a comparable version carrying a stability flag; a
pre-release/development qualifier makes it unstable.  `release` is the list of
numeric release components; `pre` is `none` for a stable version and
`some k` for a pre-release numbered `k`. -/
structure Version where
  release : List Nat
  pre : Option Nat
deriving DecidableEq, Repr

/-- Modelled from the spec: a stable version carries no
pre-release/development qualifier. -/
def Version.is_stable (v : Version) : Bool :=
  v.pre.isNone

/-- Lexicographic order on numeric release component lists. -/
def lexLe : List Nat → List Nat → Bool
  | [], _ => true
  | _ :: _, [] => false
  | a :: as, b :: bs => if a < b then true else if b < a then false else lexLe as bs

/-- Order on the pre-release field: any pre-release sorts below the stable
release (`none`), and pre-releases compare by their number. -/
def preLe : Option Nat → Option Nat → Bool
  | none, none => true
  | some _, none => true
  | none, some _ => false
  | some a, some b => decide (a ≤ b)

/-- Modelled from the spec: the total order on versions.  Releases compare
lexicographically; within one release a pre-release sorts below stable. -/
def Version.le (v w : Version) : Bool :=
  if v.release = w.release then preLe v.pre w.pre else lexLe v.release w.release

/-- Split a character list on a separator character. -/
def splitOnChar (sep : Char) : List Char → List (List Char)
  | [] => [[]]
  | c :: rest =>
    if c = sep then
      [] :: splitOnChar sep rest
    else
      match splitOnChar sep rest with
      | [] => [[c]]
      | g :: gs => (c :: g) :: gs

/-- Decimal value of a digit string. -/
def natOfDigits (cs : List Char) : Nat :=
  cs.foldl (fun n c => n * 10 + (c.toNat - 48)) 0

/-- Remove a suffix from a character list, failing when it is not a suffix. -/
def dropSuffixOfChars (suffix cs : List Char) : Option (List Char) :=
  if suffix.isSuffixOf cs then some (cs.take (cs.length - suffix.length)) else none

/-- Split dotted version components into the leading run of numeric release
components and the remaining (pre-release) components. -/
def parseReleaseComponents : List (List Char) → List Nat × List (List Char)
  | [] => ([], [])
  | comp :: rest =>
    if !comp.isEmpty && comp.all (·.isDigit) then
      let (nums, trailing) := parseReleaseComponents rest
      (natOfDigits comp :: nums, trailing)
    else
      ([], comp :: rest)

/-- The number attached to a pre-release qualifier: the value of the trailing
digit run of the qualifier text (0 when there is none). -/
def preReleaseNumber (comps : List (List Char)) : Nat :=
  natOfDigits ((comps.flatten.reverse.takeWhile (·.isDigit)).reverse)

/-- Modelled from the spec: parse a version text into a `Version`.  The text
must open with a numeric component; the leading run of numeric dotted
components forms the release, and any remaining text marks a pre-release. -/
def parseVersionText (cs : List Char) : Option Version :=
  if cs.isEmpty then none
  else
    match parseReleaseComponents (splitOnChar '.' cs) with
    | (nums, trailing) =>
      if nums.isEmpty then none
      else if trailing.isEmpty then some ⟨nums, none⟩
      else some ⟨nums, some (preReleaseNumber trailing)⟩

/-- Modelled from the spec: the Version Parser.  A filename matching
`<name>-<version><suffix>.<ext>` with `<ext>` in the fixed extension set
yields the parsed `<version>`; any other filename yields no version. -/
def version_from_filename (filename : String) : Option Version :=
  let exts := [".tar.gz", ".tar.bz2", ".zip", ".whl", ".exe", ".egg"]
  match exts.findSome? (fun ext => dropSuffixOfChars ext.data filename.data) with
  | none => none
  | some stem =>
    match splitOnChar '-' stem with
    | [] => none
    | nameComp :: rest =>
      if nameComp.isEmpty then none
      else
        match rest with
        | [] => none
        | vtext :: _ => parseVersionText vtext

/-- The candidate comparison of `sort_by_key`: compare entries by their
parsed version. -/
def candLe (a b : String × String × Version) : Prop :=
  Version.le a.2.2 b.2.2 = true

instance candLe.decRel : DecidableRel candLe :=
  fun a b => instDecidableEqBool (Version.le a.2.2 b.2.2) true

/-- `entries.iter().map(parse).collect::<Option<Vec<_>>>()` from
`truncate_to_recent`: attach a parsed version to every entry, failing when
any filename fails to parse. -/
def collectCandidates : List (String × String) → Option (List (String × String × Version))
  | [] => some []
  | (url, name) :: rest =>
    match version_from_filename name with
    | some version => (collectCandidates rest).map (fun cs => (url, name, version) :: cs)
    | none => none

/-- The newest-first selection walk of `truncate_to_recent` (the `for` loop
over the reversed sorted candidates), carrying `selected_count`,
`selected_unstable_count` and `prev`. -/
def truncGo (keepRecent atMostUnstable : Nat) :
    List (String × String × Version) → Nat → Nat → Option Version → List (String × String)
  | [], _, _, _ => []
  | (url, name, version) :: rest, selectedCount, selectedUnstableCount, prev =>
    if prev = some version then
      (url, name) :: truncGo keepRecent atMostUnstable rest selectedCount selectedUnstableCount prev
    else if keepRecent ≤ selectedCount then
      []
    else if version.is_stable then
      (url, name) ::
        truncGo keepRecent atMostUnstable rest (selectedCount + 1) selectedUnstableCount (some version)
    else if atMostUnstable ≤ selectedUnstableCount then
      truncGo keepRecent atMostUnstable rest selectedCount selectedUnstableCount prev
    else
      (url, name) ::
        truncGo keepRecent atMostUnstable rest (selectedCount + 1) (selectedUnstableCount + 1)
          (some version)

/-- `truncate_to_recent` from `src/pypi.rs`: parse every filename (returning
the input unchanged when any fails), stably sort by version ascending, then
walk newest-first keeping at most `keepRecent` distinct versions, at most
`keepRecent / 2` of them unstable, and every artifact of a retained
version. -/
def truncate_to_recent (entries : List (String × String)) (keepRecent : Nat) :
    List (String × String) :=
  match collectCandidates entries with
  | none => entries
  | some candidates =>
    let sorted := candidates.insertionSort candLe
    truncGo keepRecent (keepRecent / 2) sorted.reverse 0 0 none

/-- `get_object` from `src/pypi.rs`: the transfer resolver.  It returns
`Ok(TransferURL(format!("{}/{}", package_base, snapshot)))`, modelled as an
`Except` that always succeeds. -/
def get_object (package_base : String) (snapshot : String) : Except String String :=
  Except.ok (package_base ++ "/" ++ snapshot)

/-- Modelled from the spec: the URL Cleaner (`url::Url` parsing followed by
the slice up to `Position::AfterPath` is the external `url` crate): strip any
query string and fragment, keeping the text before the first `?` or `#`. -/
def clean_url (url : String) : String :=
  String.mk (url.data.takeWhile (fun c => c != '?' && c != '#'))

/-- The `package_base` normalization of `snapshot`: guarantee a trailing
slash. -/
def normalize_base (package_base : String) : String :=
  if ("/" : String).data.isSuffixOf package_base.data then package_base
  else package_base ++ "/"

/-- The snapshot assembly loop of `snapshot`: keep every URL that starts
with the normalized package base, stripped of that base; drop (with a
warning) every other URL. -/
def snapshot_assemble (package_base : String) (urls : List String) : List String :=
  urls.filterMap (fun url =>
    if (normalize_base package_base).data.isPrefixOf url.data then
      some (String.mk (url.data.drop (normalize_base package_base).data.length))
    else none)

/-- The per-package recovery wrapper in `snapshot`'s fan-out: an `Ok` result
passes through, an `Err` is downgraded (after a warning) to `Ok(vec![])`. -/
def recoverPackageResult (r : Except String (List (String × String))) :
    Except String (List (String × String)) :=
  match r with
  | Except.ok caps => Except.ok caps
  | Except.error _ => Except.ok []

/-- `try_collect` over the fan-out stream: collect per-package results,
failing on the first error. -/
def tryCollectResults :
    List (Except String (List (String × String))) →
      Except String (List (List (String × String)))
  | [] => Except.ok []
  | Except.ok caps :: rest => (tryCollectResults rest).map (fun acc => caps :: acc)
  | Except.error e :: _ => Except.error e

/-- The entries a package contributes after recovery: its listing on
success, nothing on failure. -/
def recoveredEntries (r : Except String (List (String × String))) : List (String × String) :=
  match r with
  | Except.ok caps => caps
  | Except.error _ => []

/-- Rust's `str::is_char_boundary` on a byte sequence: the index is the
length, or the byte there is not a UTF-8 continuation byte. -/
def isCharBoundary (doc : List Nat) (i : Nat) : Bool :=
  match doc.get? i with
  | none => decide (i = doc.length)
  | some b => decide (b < 128) || decide (192 ≤ b)

/-- Rust's `&s[..i]` string slice on a byte sequence: the first `i` bytes
when `i` is a char boundary, a panic (`none`) otherwise. -/
def sliceToIndex (doc : List Nat) (i : Nat) : Option (List Nat) :=
  if isCharBoundary doc i then some (doc.take i) else none

/-- The debug-mode truncation `index = index[..1000].to_string()` in
`pypi_index`, applied to the raw fetched document. -/
def pypiIndexDebugTruncate (doc : List Nat) : Option (List Nat) :=
  sliceToIndex doc 1000

/-- The versions parsed from the filenames of an entry list. -/
def entryVersions (l : List (String × String)) : List Version :=
  l.filterMap (fun e => version_from_filename e.2)

/-- The number of distinct versions among an entry list's filenames. -/
def distinctVersionCount (l : List (String × String)) : Nat :=
  (entryVersions l).toFinset.card

/-- The number of distinct unstable versions among an entry list's
filenames. -/
def unstableVersionCount (l : List (String × String)) : Nat :=
  ((entryVersions l).filter (fun v => !v.is_stable)).toFinset.card

/-- The finite set of versions excluded by the `prev` register of the
retention walk. -/
def prevFinset : Option Version → Finset Version
  | none => ∅
  | some v => {v}

theorem lexLe_total (as bs : List Nat) : lexLe as bs = true ∨ lexLe bs as = true := by
  induction as generalizing bs with
  | nil => exact Or.inl rfl
  | cons a as ih =>
    cases bs with
    | nil => exact Or.inr rfl
    | cons b bs =>
      simp only [lexLe]
      by_cases h1 : a < b
      · simp [h1]
      · by_cases h2 : b < a
        · simp [h1, h2]
        · simpa [h1, h2] using ih bs

theorem lexLe_trans (as : List Nat) :
    ∀ bs cs, lexLe as bs = true → lexLe bs cs = true → lexLe as cs = true := by
  induction as with
  | nil => intro bs cs _ _; rfl
  | cons a as ih =>
    intro bs cs h1 h2
    cases bs with
    | nil => simp [lexLe] at h1
    | cons b bs =>
      cases cs with
      | nil => simp [lexLe] at h2
      | cons c cs =>
        simp only [lexLe] at h1 h2 ⊢
        by_cases hab : a < b
        · by_cases hbc : b < c
          · have hac : a < c := by omega
            simp [hac]
          · by_cases hcb : c < b
            · simp [hbc, hcb] at h2
            · have hac : a < c := by omega
              simp [hac]
        · by_cases hba : b < a
          · simp [hab, hba] at h1
          · have hab' : a = b := by omega
            subst hab'
            simp only [Nat.lt_irrefl, if_false] at h1
            by_cases hac : a < c
            · simp [hac]
            · by_cases hca : c < a
              · simp [hac, hca] at h2
              · simp only [hac, hca, if_false] at h2 ⊢
                exact ih bs cs h1 h2

theorem lexLe_antisymm (as : List Nat) :
    ∀ bs, lexLe as bs = true → lexLe bs as = true → as = bs := by
  induction as with
  | nil =>
    intro bs _ h2
    cases bs with
    | nil => rfl
    | cons b bs => simp [lexLe] at h2
  | cons a as ih =>
    intro bs h1 h2
    cases bs with
    | nil => simp [lexLe] at h1
    | cons b bs =>
      simp only [lexLe] at h1 h2
      by_cases hab : a < b
      · have hba : ¬ b < a := by omega
        simp [hab, hba] at h2
      · by_cases hba : b < a
        · simp [hab, hba] at h1
        · have hab' : a = b := by omega
          subst hab'
          simp only [Nat.lt_irrefl, if_false] at h1 h2
          rw [ih bs h1 h2]

theorem preLe_total (p q : Option Nat) : preLe p q = true ∨ preLe q p = true := by
  cases p <;> cases q <;> simp [preLe] <;> omega

theorem preLe_trans (p q r : Option Nat) :
    preLe p q = true → preLe q r = true → preLe p r = true := by
  cases p <;> cases q <;> cases r <;> simp [preLe] <;> omega

theorem preLe_antisymm (p q : Option Nat) :
    preLe p q = true → preLe q p = true → p = q := by
  cases p <;> cases q <;> simp [preLe] <;> omega

theorem Version.le_total (v w : Version) : Version.le v w = true ∨ Version.le w v = true := by
  unfold Version.le
  by_cases h : v.release = w.release
  · simp [h, preLe_total]
  · have h' : w.release ≠ v.release := fun e => h e.symm
    simp only [h, h', if_false]
    exact lexLe_total _ _

theorem Version.le_trans (u v w : Version) :
    Version.le u v = true → Version.le v w = true → Version.le u w = true := by
  unfold Version.le
  intro h1 h2
  by_cases huv : u.release = v.release
  · by_cases hvw : v.release = w.release
    · have huw : u.release = w.release := huv.trans hvw
      simp only [huv, hvw, if_true, huw] at h1 h2 ⊢
      exact preLe_trans _ _ _ h1 h2
    · have huw : u.release ≠ w.release := huv ▸ hvw
      simp only [huv, hvw, huw, if_true, if_false] at h1 h2 ⊢
      exact huv ▸ h2
  · by_cases hvw : v.release = w.release
    · have huw : u.release ≠ w.release := fun e => huv (e.trans hvw.symm)
      simp only [huv, hvw, huw, if_false, if_true] at h1 h2 ⊢
      exact hvw ▸ h1
    · simp only [huv, hvw, if_false] at h1 h2
      by_cases huw : u.release = w.release
      · exfalso
        apply hvw
        exact lexLe_antisymm _ _ h2 (huw ▸ h1)
      · simp only [huw, if_false]
        exact lexLe_trans _ _ _ h1 h2

theorem Version.ext_components (v w : Version) (h1 : v.release = w.release)
    (h2 : v.pre = w.pre) : v = w := by
  cases v
  cases w
  simp_all

theorem Version.le_antisymm (v w : Version) :
    Version.le v w = true → Version.le w v = true → v = w := by
  intro h1 h2
  unfold Version.le at h1 h2
  by_cases h : v.release = w.release
  · rw [if_pos h] at h1
    rw [if_pos h.symm] at h2
    exact Version.ext_components v w h (preLe_antisymm _ _ h1 h2)
  · have h' : w.release ≠ v.release := fun e => h e.symm
    rw [if_neg h] at h1
    rw [if_neg h'] at h2
    exact absurd (lexLe_antisymm _ _ h1 h2) h

theorem takeWhile_self_eq {α : Type} (p : α → Bool) (l : List α) :
    (l.takeWhile p).takeWhile p = l.takeWhile p := by
  induction l with
  | nil => rfl
  | cons c cs ih =>
    by_cases h : p c
    · simp [List.takeWhile_cons, h, ih]
    · simp [List.takeWhile_cons, h]

theorem isPrefixOf_append_drop {b u : List Char} (h : b.isPrefixOf u = true) :
    b ++ u.drop b.length = u := by
  induction b generalizing u with
  | nil => simp
  | cons x xs ih =>
    cases u with
    | nil => simp [List.isPrefixOf] at h
    | cons y ys =>
      simp only [List.isPrefixOf, Bool.and_eq_true, beq_iff_eq] at h
      obtain ⟨rfl, h2⟩ := h
      simp [ih h2]

theorem collectCandidates_spec :
    ∀ {entries : List (String × String)} {cs : List (String × String × Version)},
      collectCandidates entries = some cs →
      cs.map (fun c => (c.1, c.2.1)) = entries ∧
        ∀ c ∈ cs, version_from_filename c.2.1 = some c.2.2 := by
  intro entries
  induction entries with
  | nil =>
    intro cs h
    simp only [collectCandidates, Option.some.injEq] at h
    subst h
    simp
  | cons e rest ih =>
    obtain ⟨u, n⟩ := e
    intro cs h
    simp only [collectCandidates] at h
    cases hv : version_from_filename n with
    | none => rw [hv] at h; exact absurd h (by simp)
    | some v =>
      rw [hv] at h
      cases hrest : collectCandidates rest with
      | none => rw [hrest] at h; exact absurd h (by simp [Option.map])
      | some cs' =>
        rw [hrest] at h
        simp only [Option.map, Option.some.injEq] at h
        subst h
        obtain ⟨ih1, ih2⟩ := ih hrest
        refine ⟨by simp [ih1], ?_⟩
        intro c hc
        rcases List.mem_cons.mp hc with hc | hc
        · subst hc; simpa using hv
        · exact ih2 c hc

theorem collectCandidates_isSome :
    ∀ {entries : List (String × String)},
      (∀ e ∈ entries, (version_from_filename e.2).isSome = true) →
      ∃ cs, collectCandidates entries = some cs := by
  intro entries
  induction entries with
  | nil => exact fun _ => ⟨[], rfl⟩
  | cons e rest ih =>
    obtain ⟨u, n⟩ := e
    intro h
    have hh := h (u, n) (List.mem_cons_self _ _)
    rw [Option.isSome_iff_exists] at hh
    obtain ⟨v, hv⟩ := hh
    obtain ⟨cs', hcs'⟩ := ih (fun e he => h e (List.mem_cons_of_mem _ he))
    exact ⟨(u, n, v) :: cs', by simp [collectCandidates, hv, hcs']⟩

theorem collectCandidates_none :
    ∀ {entries : List (String × String)} (e : String × String),
      e ∈ entries → version_from_filename e.2 = none → collectCandidates entries = none := by
  intro entries
  induction entries with
  | nil => intro e he; cases he
  | cons hd rest ih =>
    obtain ⟨u, n⟩ := hd
    intro e he hpe
    rcases List.mem_cons.mp he with he | he
    · subst he
      simp only [collectCandidates, hpe]
    · simp only [collectCandidates]
      cases hv : version_from_filename n with
      | none => rfl
      | some v => rw [ih e he hpe]; rfl

/-- C6.  For every package entry list containing at least one filename that
the Version Parser fails to parse, `truncate_to_recent` returns its input
list unchanged, in the same order, regardless of the budget. -/
theorem retention_identity_on_unparseable (entries : List (String × String)) (K : Nat)
    (h : ∃ e ∈ entries, version_from_filename e.2 = none) :
    truncate_to_recent entries K = entries := by
  obtain ⟨e, he, hpe⟩ := h
  unfold truncate_to_recent
  rw [collectCandidates_none e he hpe]

theorem retention_identity_on_unparseable_witness :
    version_from_filename "data.tar" = none ∧
      truncate_to_recent [("u1", "data.tar"), ("u2", "readme.txt")] 5 =
        [("u1", "data.tar"), ("u2", "readme.txt")] :=
  ⟨by decide,
    retention_identity_on_unparseable _ 5 ⟨("u1", "data.tar"), by decide, by decide⟩⟩

/-- C2 counterexample.  The transfer resolver does not return the plain
concatenation `base ++ entry`: it inserts a `/` separator. -/
theorem transfer_resolver_not_plain_concat :
    ¬ get_object "b" "e" = Except.ok ("b" ++ "e") := by
  simp only [get_object, Except.ok.injEq]
  decide

/-- C2 (amended).  For every snapshot entry and package base, `get_object`
returns exactly `base ++ "/" ++ entry`, performs no I/O, and never fails. -/
theorem transfer_resolver_slash_concat (base entry : String) :
    get_object base entry = Except.ok (base ++ "/" ++ entry) := rfl

/-- C7.  The URL cleaner is idempotent: cleaning an already-clean URL is a
no-op. -/
theorem clean_url_idempotent (u : String) : clean_url (clean_url u) = clean_url u :=
  congrArg String.mk (takeWhile_self_eq _ u.data)

/-- C8.  A failed package contributes an empty entry list, the collected run
always succeeds, and every other package's entries are unaffected
(position-wise the collected value is each package's own recovered list). -/
theorem fanout_failure_isolation (results : List (Except String (List (String × String)))) :
    tryCollectResults (results.map recoverPackageResult) =
      Except.ok (results.map recoveredEntries) := by
  induction results with
  | nil => rfl
  | cons r rest ih =>
    cases r with
    | ok caps =>
      simp [recoverPackageResult, tryCollectResults, recoveredEntries, ih, Except.map]
    | error e =>
      simp [recoverPackageResult, tryCollectResults, recoveredEntries, ih, Except.map]

/-- C10.  The debug truncation of the raw index document returns normally
exactly when byte offset 1000 is a char boundary of the document (which
forces the document to be at least 1000 bytes long), yielding the first 1000
bytes; any shorter document makes the slice panic. -/
theorem debug_truncation_boundary (doc : List Nat) :
    ((pypiIndexDebugTruncate doc).isSome ↔
        1000 ≤ doc.length ∧ isCharBoundary doc 1000 = true) ∧
      (doc.length < 1000 → pypiIndexDebugTruncate doc = none) ∧
      (∀ out, pypiIndexDebugTruncate doc = some out → out = doc.take 1000) := by
  have hb : isCharBoundary doc 1000 = true → 1000 ≤ doc.length := by
    intro h
    unfold isCharBoundary at h
    cases hg : doc.get? 1000 with
    | none =>
      rw [hg] at h
      simp only [decide_eq_true_eq] at h
      omega
    | some b =>
      have : ¬ doc.length ≤ 1000 := fun hle => by
        rw [List.get?_eq_none.mpr hle] at hg
        cases hg
      omega
  refine ⟨?_, ?_, ?_⟩
  · constructor
    · intro h
      unfold pypiIndexDebugTruncate sliceToIndex at h
      by_cases hc : isCharBoundary doc 1000 = true
      · exact ⟨hb hc, hc⟩
      · rw [if_neg (by simpa using hc)] at h
        cases h
    · intro ⟨_, hc⟩
      unfold pypiIndexDebugTruncate sliceToIndex
      rw [if_pos hc]
      rfl
  · intro hlt
    unfold pypiIndexDebugTruncate sliceToIndex
    have hc : isCharBoundary doc 1000 = false := by
      by_contra hc
      have := hb (by simpa using Bool.not_eq_false _ ▸ hc)
      omega
    rw [if_neg (by simp [hc])]
  · intro out h
    unfold pypiIndexDebugTruncate sliceToIndex at h
    by_cases hc : isCharBoundary doc 1000 = true
    · rw [if_pos hc] at h
      exact (Option.some.inj h).symm
    · rw [if_neg (by simpa using hc)] at h
      cases h

theorem debug_truncation_boundary_witness :
    (List.replicate 5 (65 : Nat)).length < 1000 ∧
      pypiIndexDebugTruncate (List.replicate 5 (65 : Nat)) = none :=
  ⟨by decide, (debug_truncation_boundary _).2.1 (by decide)⟩

/-- C3.  Every emitted snapshot entry, prefixed with the normalized package
base, reproduces an observed URL; every observed URL starting with the
normalized base is emitted stripped of that base; and URLs not starting with
the base contribute nothing (assembly never fails on them). -/
theorem snapshot_assembler_base_roundtrip (package_base : String) (urls : List String) :
    (∀ e ∈ snapshot_assemble package_base urls, normalize_base package_base ++ e ∈ urls) ∧
      (∀ url ∈ urls,
        (normalize_base package_base).data.isPrefixOf url.data = true →
          String.mk (url.data.drop (normalize_base package_base).data.length) ∈
            snapshot_assemble package_base urls) ∧
      snapshot_assemble package_base urls =
        snapshot_assemble package_base
          (urls.filter (fun url => (normalize_base package_base).data.isPrefixOf url.data)) := by
  refine ⟨?_, ?_, ?_⟩
  · intro e he
    unfold snapshot_assemble at he
    obtain ⟨url, hurl, hf⟩ := List.mem_filterMap.mp he
    by_cases hp : (normalize_base package_base).data.isPrefixOf url.data = true
    · rw [if_pos hp] at hf
      have he' := Option.some.inj hf
      subst he'
      have : normalize_base package_base ++
          String.mk (url.data.drop (normalize_base package_base).data.length) = url := by
        apply String.ext
        simpa using isPrefixOf_append_drop hp
      rwa [this]
    · rw [if_neg hp] at hf
      cases hf
  · intro url hurl hp
    unfold snapshot_assemble
    exact List.mem_filterMap.mpr ⟨url, hurl, by rw [if_pos hp]⟩
  · unfold snapshot_assemble
    induction urls with
    | nil => rfl
    | cons u us ih =>
      by_cases hp : (normalize_base package_base).data.isPrefixOf u.data = true
      · simp only [List.filter_cons, hp, if_pos, List.filterMap_cons]
        rw [ih]
      · simp only [List.filter_cons, List.filterMap_cons]
        rw [if_neg hp]
        simp only [hp, Bool.false_eq_true, if_false]
        rw [ih]

theorem snapshot_assembler_base_roundtrip_witness :
    String.mk (("b/x" : String).data.drop (normalize_base "b").data.length) ∈
      snapshot_assemble "b" ["b/x", "q"] :=
  (snapshot_assembler_base_roundtrip "b" ["b/x", "q"]).2.1 "b/x" (by decide) (by decide)

theorem entryVersions_cons_some {u n : String} {v : Version}
    (h : version_from_filename n = some v) (l : List (String × String)) :
    entryVersions ((u, n) :: l) = v :: entryVersions l := by
  simp [entryVersions, List.filterMap_cons, h]

theorem truncGo_cons_prev {keep atMost : Nat} {url name : String} {ver : Version}
    {rest : List (String × String × Version)} {sel selU : Nat} {prev : Option Version}
    (h : prev = some ver) :
    truncGo keep atMost ((url, name, ver) :: rest) sel selU prev =
      (url, name) :: truncGo keep atMost rest sel selU prev := by
  simp only [truncGo]
  rw [if_pos h]

theorem truncGo_cons_break {keep atMost : Nat} {url name : String} {ver : Version}
    {rest : List (String × String × Version)} {sel selU : Nat} {prev : Option Version}
    (hprev : ¬ prev = some ver) (hsel : keep ≤ sel) :
    truncGo keep atMost ((url, name, ver) :: rest) sel selU prev = [] := by
  simp only [truncGo]
  rw [if_neg hprev, if_pos hsel]

theorem truncGo_cons_stable {keep atMost : Nat} {url name : String} {ver : Version}
    {rest : List (String × String × Version)} {sel selU : Nat} {prev : Option Version}
    (hprev : ¬ prev = some ver) (hsel : ¬ keep ≤ sel) (hst : ver.is_stable = true) :
    truncGo keep atMost ((url, name, ver) :: rest) sel selU prev =
      (url, name) :: truncGo keep atMost rest (sel + 1) selU (some ver) := by
  simp only [truncGo]
  rw [if_neg hprev, if_neg hsel, if_pos hst]

theorem truncGo_cons_skip {keep atMost : Nat} {url name : String} {ver : Version}
    {rest : List (String × String × Version)} {sel selU : Nat} {prev : Option Version}
    (hprev : ¬ prev = some ver) (hsel : ¬ keep ≤ sel) (hst : ¬ ver.is_stable = true)
    (hU : atMost ≤ selU) :
    truncGo keep atMost ((url, name, ver) :: rest) sel selU prev =
      truncGo keep atMost rest sel selU prev := by
  simp only [truncGo]
  rw [if_neg hprev, if_neg hsel, if_neg hst, if_pos hU]

theorem truncGo_cons_unstable {keep atMost : Nat} {url name : String} {ver : Version}
    {rest : List (String × String × Version)} {sel selU : Nat} {prev : Option Version}
    (hprev : ¬ prev = some ver) (hsel : ¬ keep ≤ sel) (hst : ¬ ver.is_stable = true)
    (hU : ¬ atMost ≤ selU) :
    truncGo keep atMost ((url, name, ver) :: rest) sel selU prev =
      (url, name) :: truncGo keep atMost rest (sel + 1) (selU + 1) (some ver) := by
  simp only [truncGo]
  rw [if_neg hprev, if_neg hsel, if_neg hst, if_neg hU]

theorem card_insert_sdiff_le {T P : Finset Version} (v : Version) :
    ((insert v T) \ P).card ≤ (T \ {v}).card + 1 := by
  have hsub : (insert v T) \ P ⊆ insert v (T \ {v}) := by
    intro x hx
    rw [Finset.mem_sdiff] at hx
    rcases Finset.mem_insert.mp hx.1 with h | h
    · subst h
      exact Finset.mem_insert_self _ _
    · by_cases hxv : x = v
      · subst hxv
        exact Finset.mem_insert_self _ _
      · exact Finset.mem_insert_of_mem (Finset.mem_sdiff.mpr ⟨h, by simp [hxv]⟩)
  calc ((insert v T) \ P).card ≤ (insert v (T \ {v})).card := Finset.card_le_card hsub
    _ ≤ (T \ {v}).card + 1 := Finset.card_insert_le _ _

theorem truncGo_distinct_bound (keep atMost : Nat) :
    ∀ L : List (String × String × Version),
      (∀ c ∈ L, version_from_filename c.2.1 = some c.2.2) →
      ∀ sel selU prev,
        ((entryVersions (truncGo keep atMost L sel selU prev)).toFinset \ prevFinset prev).card
          ≤ keep - sel := by
  intro L
  induction L with
  | nil =>
    intro _ sel selU prev
    simp [truncGo, entryVersions]
  | cons hd rest ih =>
    obtain ⟨url, name, ver⟩ := hd
    intro hcons sel selU prev
    have hname : version_from_filename name = some ver :=
      hcons (url, name, ver) (List.mem_cons_self _ _)
    have hrest : ∀ c ∈ rest, version_from_filename c.2.1 = some c.2.2 :=
      fun c hc => hcons c (List.mem_cons_of_mem _ hc)
    by_cases hprev : prev = some ver
    · rw [truncGo_cons_prev hprev, entryVersions_cons_some hname, hprev]
      simp only [List.toFinset_cons, prevFinset]
      rw [Finset.insert_sdiff_of_mem _ (Finset.mem_singleton_self ver)]
      have hih := ih hrest sel selU prev
      rw [hprev] at hih
      simpa only [prevFinset] using hih
    · by_cases hsel : keep ≤ sel
      · rw [truncGo_cons_break hprev hsel]
        simp [entryVersions]
      · by_cases hst : ver.is_stable = true
        · rw [truncGo_cons_stable hprev hsel hst, entryVersions_cons_some hname]
          simp only [List.toFinset_cons]
          have hih := ih hrest (sel + 1) selU (some ver)
          simp only [prevFinset] at hih
          have hcard := card_insert_sdiff_le
            (T := (entryVersions (truncGo keep atMost rest (sel + 1) selU (some ver))).toFinset)
            (P := prevFinset prev) ver
          omega
        · by_cases hU : atMost ≤ selU
          · rw [truncGo_cons_skip hprev hsel hst hU]
            exact ih hrest sel selU prev
          · rw [truncGo_cons_unstable hprev hsel hst hU, entryVersions_cons_some hname]
            simp only [List.toFinset_cons]
            have hih := ih hrest (sel + 1) (selU + 1) (some ver)
            simp only [prevFinset] at hih
            have hcard := card_insert_sdiff_le
              (T := (entryVersions
                (truncGo keep atMost rest (sel + 1) (selU + 1) (some ver))).toFinset)
              (P := prevFinset prev) ver
            omega

/-- C1.  For every package whose every filename parses, the retention filter
with budget `K` retains at most `K` distinct versions among its output
entries. -/
theorem retention_distinct_version_bound (entries : List (String × String)) (K : Nat)
    (hall : ∀ e ∈ entries, (version_from_filename e.2).isSome = true) :
    distinctVersionCount (truncate_to_recent entries K) ≤ K := by
  obtain ⟨cs, hc⟩ := collectCandidates_isSome hall
  obtain ⟨hproj, hcons⟩ := collectCandidates_spec hc
  have heq : truncate_to_recent entries K =
      truncGo K (K / 2) ((cs.insertionSort candLe).reverse) 0 0 none := by
    unfold truncate_to_recent
    rw [hc]
  have hconsR : ∀ c ∈ (cs.insertionSort candLe).reverse,
      version_from_filename c.2.1 = some c.2.2 := by
    intro c hcR
    apply hcons
    simpa only [List.mem_reverse, List.mem_insertionSort] using hcR
  rw [heq]
  unfold distinctVersionCount
  have hbound := truncGo_distinct_bound K (K / 2) _ hconsR 0 0 none
  simpa only [prevFinset, Finset.sdiff_empty, Nat.sub_zero] using hbound

theorem retention_distinct_version_bound_witness :
    distinctVersionCount (truncate_to_recent
        [("u1", "foo-1.0.0.tar.gz"), ("u2", "foo-1.0.0.whl"), ("u3", "foo-2.0.0rc1.tar.gz"),
          ("u4", "foo-2.0.1.tar.gz")] 2) ≤ 2 :=
  retention_distinct_version_bound _ 2 (by decide)

theorem truncGo_unstable_bound (keep atMost : Nat) :
    ∀ L : List (String × String × Version),
      (∀ c ∈ L, version_from_filename c.2.1 = some c.2.2) →
      ∀ sel selU prev,
        (((entryVersions (truncGo keep atMost L sel selU prev)).filter
            (fun v => !v.is_stable)).toFinset \ prevFinset prev).card ≤ atMost - selU := by
  intro L
  induction L with
  | nil =>
    intro _ sel selU prev
    simp [truncGo, entryVersions]
  | cons hd rest ih =>
    obtain ⟨url, name, ver⟩ := hd
    intro hcons sel selU prev
    have hname : version_from_filename name = some ver :=
      hcons (url, name, ver) (List.mem_cons_self _ _)
    have hrest : ∀ c ∈ rest, version_from_filename c.2.1 = some c.2.2 :=
      fun c hc => hcons c (List.mem_cons_of_mem _ hc)
    by_cases hprev : prev = some ver
    · rw [truncGo_cons_prev hprev, entryVersions_cons_some hname, hprev]
      have hih := ih hrest sel selU prev
      rw [hprev] at hih
      simp only [prevFinset] at hih
      by_cases hst : (!ver.is_stable) = true
      · simp only [List.filter_cons, hst, reduceIte]
        simp only [List.toFinset_cons, prevFinset]
        rw [Finset.insert_sdiff_of_mem _ (Finset.mem_singleton_self ver)]
        exact hih
      · have hcond : (!ver.is_stable) = false := by
          cases hb : (!ver.is_stable)
          · rfl
          · exact absurd hb hst
        simp only [List.filter_cons, hcond, reduceIte]
        exact hih
    · by_cases hsel : keep ≤ sel
      · rw [truncGo_cons_break hprev hsel]
        simp [entryVersions]
      · by_cases hst : ver.is_stable = true
        · rw [truncGo_cons_stable hprev hsel hst, entryVersions_cons_some hname]
          have hcond : (!ver.is_stable) = false := by simp [hst]
          simp only [List.filter_cons, hcond, reduceIte]
          have hih := ih hrest (sel + 1) selU (some ver)
          simp only [prevFinset] at hih
          have hnm : ver ∉ ((entryVersions
              (truncGo keep atMost rest (sel + 1) selU (some ver))).filter
                (fun v => !v.is_stable)).toFinset := by
            rw [List.mem_toFinset, List.mem_filter]
            simp [hst]
          rw [Finset.sdiff_singleton_eq_erase, Finset.erase_eq_of_not_mem hnm] at hih
          calc (((entryVersions (truncGo keep atMost rest (sel + 1) selU (some ver))).filter
                (fun v => !v.is_stable)).toFinset \ prevFinset prev).card
              ≤ ((entryVersions (truncGo keep atMost rest (sel + 1) selU (some ver))).filter
                (fun v => !v.is_stable)).toFinset.card :=
                Finset.card_le_card (Finset.sdiff_subset)
            _ ≤ atMost - selU := hih
        · by_cases hU : atMost ≤ selU
          · rw [truncGo_cons_skip hprev hsel hst hU]
            exact ih hrest sel selU prev
          · rw [truncGo_cons_unstable hprev hsel hst hU, entryVersions_cons_some hname]
            have hsf : ver.is_stable = false := by
              cases hb : ver.is_stable
              · rfl
              · exact absurd hb hst
            have hcond : (!ver.is_stable) = true := by simp [hsf]
            simp only [List.filter_cons, hcond, reduceIte]
            simp only [List.toFinset_cons]
            have hih := ih hrest (sel + 1) (selU + 1) (some ver)
            simp only [prevFinset] at hih
            have hcard := card_insert_sdiff_le
              (T := ((entryVersions
                (truncGo keep atMost rest (sel + 1) (selU + 1) (some ver))).filter
                  (fun v => !v.is_stable)).toFinset)
              (P := prevFinset prev) ver
            omega

/-- C4.  For every package whose every filename parses, the retention filter
with budget `K` retains at most `K / 2` (integer division) distinct unstable
versions. -/
theorem retention_unstable_bound (entries : List (String × String)) (K : Nat)
    (hall : ∀ e ∈ entries, (version_from_filename e.2).isSome = true) :
    unstableVersionCount (truncate_to_recent entries K) ≤ K / 2 := by
  obtain ⟨cs, hc⟩ := collectCandidates_isSome hall
  obtain ⟨hproj, hcons⟩ := collectCandidates_spec hc
  have heq : truncate_to_recent entries K =
      truncGo K (K / 2) ((cs.insertionSort candLe).reverse) 0 0 none := by
    unfold truncate_to_recent
    rw [hc]
  have hconsR : ∀ c ∈ (cs.insertionSort candLe).reverse,
      version_from_filename c.2.1 = some c.2.2 := by
    intro c hcR
    apply hcons
    simpa only [List.mem_reverse, List.mem_insertionSort] using hcR
  rw [heq]
  unfold unstableVersionCount
  have hbound := truncGo_unstable_bound K (K / 2) _ hconsR 0 0 none
  simpa only [prevFinset, Finset.sdiff_empty, Nat.sub_zero] using hbound

theorem retention_unstable_bound_witness :
    unstableVersionCount (truncate_to_recent
        [("u1", "foo-1.0.0.tar.gz"), ("u2", "foo-1.0.0.whl"), ("u3", "foo-2.0.0rc1.tar.gz"),
          ("u4", "foo-2.0.1.tar.gz")] 2) ≤ 2 / 2 :=
  retention_unstable_bound _ 2 (by decide)

theorem truncGo_length_le (keep atMost : Nat) :
    ∀ (L : List (String × String × Version)) sel selU prev,
      (truncGo keep atMost L sel selU prev).length ≤ L.length := by
  intro L
  induction L with
  | nil => intro sel selU prev; simp [truncGo]
  | cons hd rest ih =>
    obtain ⟨url, name, ver⟩ := hd
    intro sel selU prev
    by_cases hprev : prev = some ver
    · rw [truncGo_cons_prev hprev]
      simpa using ih sel selU prev
    · by_cases hsel : keep ≤ sel
      · rw [truncGo_cons_break hprev hsel]
        simp
      · by_cases hst : ver.is_stable = true
        · rw [truncGo_cons_stable hprev hsel hst]
          simpa using ih (sel + 1) selU (some ver)
        · by_cases hU : atMost ≤ selU
          · rw [truncGo_cons_skip hprev hsel hst hU]
            exact Nat.le_succ_of_le (ih sel selU prev)
          · rw [truncGo_cons_unstable hprev hsel hst hU]
            simpa using ih (sel + 1) (selU + 1) (some ver)

theorem truncGo_prev_locked (keep atMost : Nat) (v : Version) :
    ∀ L : List (String × String × Version),
      L.Pairwise (fun a b => Version.le b.2.2 a.2.2 = true) →
      (∀ c ∈ L, Version.le c.2.2 v = true) →
      ∀ sel selU, ∀ c ∈ L, c.2.2 = v →
        (c.1, c.2.1) ∈ truncGo keep atMost L sel selU (some v) := by
  intro L
  induction L with
  | nil => intro _ _ sel selU c hc; cases hc
  | cons hd rest ih =>
    obtain ⟨url, name, w⟩ := hd
    intro hpw hle sel selU c hc hcv
    have hpwrest := (List.pairwise_cons.mp hpw).2
    have hhead := (List.pairwise_cons.mp hpw).1
    rcases List.mem_cons.mp hc with heq | hcr
    · subst heq
      have hguard : (some v : Option Version) = some w := congrArg some hcv.symm
      rw [truncGo_cons_prev hguard]
      exact List.mem_cons_self _ _
    · by_cases hw : w = v
      · have hguard : (some v : Option Version) = some w := congrArg some hw.symm
        rw [truncGo_cons_prev hguard]
        exact List.mem_cons_of_mem _
          (ih hpwrest (fun b hb => hle b (List.mem_cons_of_mem _ hb)) sel selU c hcr hcv)
      · exfalso
        have h1 : Version.le c.2.2 w = true := hhead c hcr
        have h2 : Version.le w v = true := hle _ (List.mem_cons_self _ _)
        rw [hcv] at h1
        exact hw (Version.le_antisymm w v h2 h1)

theorem truncGo_unstable_blocked (keep atMost : Nat) (v : Version)
    (hv : v.is_stable = false) :
    ∀ L : List (String × String × Version),
      (∀ c ∈ L, version_from_filename c.2.1 = some c.2.2) →
      ∀ sel selU prev, atMost ≤ selU → prev ≠ some v →
        ∀ q ∈ truncGo keep atMost L sel selU prev, version_from_filename q.2 ≠ some v := by
  intro L
  induction L with
  | nil => intro _ sel selU prev _ _ q hq; cases hq
  | cons hd rest ih =>
    obtain ⟨url, name, w⟩ := hd
    intro hcons sel selU prev hU hprev q hq
    have hname : version_from_filename name = some w := hcons _ (List.mem_cons_self _ _)
    have hrest : ∀ c ∈ rest, version_from_filename c.2.1 = some c.2.2 :=
      fun c hc => hcons c (List.mem_cons_of_mem _ hc)
    by_cases hpw : prev = some w
    · rw [truncGo_cons_prev hpw] at hq
      rcases List.mem_cons.mp hq with heq | hqr
      · subst heq
        intro hqv
        have hwv : w = v := Option.some.inj (hname.symm.trans hqv)
        exact hprev (by rw [hpw, hwv])
      · exact ih hrest sel selU prev hU hprev q hqr
    · by_cases hsel : keep ≤ sel
      · rw [truncGo_cons_break hpw hsel] at hq
        cases hq
      · by_cases hst : w.is_stable = true
        · rw [truncGo_cons_stable hpw hsel hst] at hq
          rcases List.mem_cons.mp hq with heq | hqr
          · subst heq
            intro hqv
            have hwv : w = v := Option.some.inj (hname.symm.trans hqv)
            rw [hwv, hv] at hst
            cases hst
          · have hne : (some w : Option Version) ≠ some v := by
              intro hsw
              have hwv := Option.some.inj hsw
              rw [hwv, hv] at hst
              cases hst
            exact ih hrest (sel + 1) selU (some w) hU hne q hqr
        · rw [truncGo_cons_skip hpw hsel hst hU] at hq
          exact ih hrest sel selU prev hU hprev q hq

theorem truncGo_version_complete (keep atMost : Nat) (v : Version) :
    ∀ L : List (String × String × Version),
      (∀ c ∈ L, version_from_filename c.2.1 = some c.2.2) →
      L.Pairwise (fun a b => Version.le b.2.2 a.2.2 = true) →
      ∀ sel selU prev,
        (∃ q ∈ truncGo keep atMost L sel selU prev, version_from_filename q.2 = some v) →
        ∀ c ∈ L, c.2.2 = v → (c.1, c.2.1) ∈ truncGo keep atMost L sel selU prev := by
  intro L
  induction L with
  | nil => intro _ _ sel selU prev _ c hc; cases hc
  | cons hd rest ih =>
    obtain ⟨url, name, w⟩ := hd
    intro hcons hpw sel selU prev hex c hc hcv
    have hname : version_from_filename name = some w := hcons _ (List.mem_cons_self _ _)
    have hrest : ∀ c ∈ rest, version_from_filename c.2.1 = some c.2.2 :=
      fun c hc => hcons c (List.mem_cons_of_mem _ hc)
    have hpwrest := (List.pairwise_cons.mp hpw).2
    have hhead := (List.pairwise_cons.mp hpw).1
    by_cases hprev : prev = some w
    · rw [truncGo_cons_prev hprev] at hex ⊢
      by_cases hvw : w = v
      · subst hvw
        rcases List.mem_cons.mp hc with heq | hcr
        · subst heq
          exact List.mem_cons_self _ _
        · apply List.mem_cons_of_mem
          rw [hprev]
          exact truncGo_prev_locked keep atMost w rest hpwrest hhead sel selU c hcr hcv
      · obtain ⟨q, hq, hqv⟩ := hex
        rcases List.mem_cons.mp hq with heq | hqr
        · subst heq
          exact absurd (Option.some.inj (hname.symm.trans hqv)) hvw
        · rcases List.mem_cons.mp hc with heq | hcr
          · subst heq
            exact absurd hcv hvw
          · exact List.mem_cons_of_mem _
              (ih hrest hpwrest sel selU prev ⟨q, hqr, hqv⟩ c hcr hcv)
    · by_cases hsel : keep ≤ sel
      · rw [truncGo_cons_break hprev hsel] at hex
        obtain ⟨q, hq, _⟩ := hex
        cases hq
      · by_cases hst : w.is_stable = true
        · rw [truncGo_cons_stable hprev hsel hst] at hex ⊢
          by_cases hvw : w = v
          · subst hvw
            rcases List.mem_cons.mp hc with heq | hcr
            · subst heq
              exact List.mem_cons_self _ _
            · exact List.mem_cons_of_mem _
                (truncGo_prev_locked keep atMost w rest hpwrest hhead (sel + 1) selU c hcr hcv)
          · obtain ⟨q, hq, hqv⟩ := hex
            rcases List.mem_cons.mp hq with heq | hqr
            · subst heq
              exact absurd (Option.some.inj (hname.symm.trans hqv)) hvw
            · rcases List.mem_cons.mp hc with heq | hcr
              · subst heq
                exact absurd hcv hvw
              · exact List.mem_cons_of_mem _
                  (ih hrest hpwrest (sel + 1) selU (some w) ⟨q, hqr, hqv⟩ c hcr hcv)
        · by_cases hU : atMost ≤ selU
          · rw [truncGo_cons_skip hprev hsel hst hU] at hex ⊢
            by_cases hvw : w = v
            · exfalso
              subst hvw
              have hwf : w.is_stable = false := by
                cases hb : w.is_stable
                · rfl
                · exact absurd hb hst
              obtain ⟨q, hq, hqv⟩ := hex
              exact truncGo_unstable_blocked keep atMost w hwf rest hrest
                sel selU prev hU hprev q hq hqv
            · rcases List.mem_cons.mp hc with heq | hcr
              · subst heq
                exact absurd hcv hvw
              · exact ih hrest hpwrest sel selU prev hex c hcr hcv
          · rw [truncGo_cons_unstable hprev hsel hst hU] at hex ⊢
            by_cases hvw : w = v
            · subst hvw
              rcases List.mem_cons.mp hc with heq | hcr
              · subst heq
                exact List.mem_cons_self _ _
              · exact List.mem_cons_of_mem _
                  (truncGo_prev_locked keep atMost w rest hpwrest hhead
                    (sel + 1) (selU + 1) c hcr hcv)
            · obtain ⟨q, hq, hqv⟩ := hex
              rcases List.mem_cons.mp hq with heq | hqr
              · subst heq
                exact absurd (Option.some.inj (hname.symm.trans hqv)) hvw
              · rcases List.mem_cons.mp hc with heq | hcr
                · subst heq
                  exact absurd hcv hvw
                · exact List.mem_cons_of_mem _
                    (ih hrest hpwrest (sel + 1) (selU + 1) (some w) ⟨q, hqr, hqv⟩ c hcr hcv)

/-- C5.  For every package whose every filename parses: if any artifact of a
version is retained then every input artifact of that exact version is
retained, and the output never has more artifacts than the input. -/
theorem retention_version_completeness (entries : List (String × String)) (K : Nat)
    (hall : ∀ e ∈ entries, (version_from_filename e.2).isSome = true) :
    (∀ v : Version,
        (∃ q ∈ truncate_to_recent entries K, version_from_filename q.2 = some v) →
        ∀ p ∈ entries, version_from_filename p.2 = some v →
          p ∈ truncate_to_recent entries K) ∧
      (truncate_to_recent entries K).length ≤ entries.length := by
  obtain ⟨cs, hc⟩ := collectCandidates_isSome hall
  obtain ⟨hproj, hcons⟩ := collectCandidates_spec hc
  have heq : truncate_to_recent entries K =
      truncGo K (K / 2) ((cs.insertionSort candLe).reverse) 0 0 none := by
    unfold truncate_to_recent
    rw [hc]
  have hconsR : ∀ c ∈ (cs.insertionSort candLe).reverse,
      version_from_filename c.2.1 = some c.2.2 := by
    intro c hcR
    apply hcons
    simpa only [List.mem_reverse, List.mem_insertionSort] using hcR
  have hsortR : ((cs.insertionSort candLe).reverse).Pairwise
      (fun a b => Version.le b.2.2 a.2.2 = true) := by
    rw [List.pairwise_reverse]
    haveI : IsTotal (String × String × Version) candLe := ⟨fun a b => Version.le_total _ _⟩
    haveI : IsTrans (String × String × Version) candLe :=
      ⟨fun _ _ _ h1 h2 => Version.le_trans _ _ _ h1 h2⟩
    exact List.sorted_insertionSort candLe cs
  constructor
  · intro v hex p hp hpv
    rw [heq] at hex ⊢
    rw [← hproj] at hp
    obtain ⟨c, hccs, hcp⟩ := List.mem_map.mp hp
    have hcp' : (c.1, c.2.1) = p := hcp
    have hcv : c.2.2 = v := by
      have h1 := hcons c hccs
      have h2 : c.2.1 = p.2 := congrArg Prod.snd hcp'
      rw [h2, hpv] at h1
      exact (Option.some.inj h1).symm
    have hcR : c ∈ (cs.insertionSort candLe).reverse := by
      simp only [List.mem_reverse, List.mem_insertionSort]
      exact hccs
    have hmem := truncGo_version_complete K (K / 2) v _ hconsR hsortR 0 0 none hex c hcR hcv
    exact hcp' ▸ hmem
  · rw [heq]
    calc (truncGo K (K / 2) ((cs.insertionSort candLe).reverse) 0 0 none).length
        ≤ ((cs.insertionSort candLe).reverse).length := truncGo_length_le _ _ _ _ _ _
      _ = entries.length := by
          rw [List.length_reverse, List.length_insertionSort, ← hproj, List.length_map]

theorem retention_version_completeness_witness :
    ("u2", "foo-1.0.0.whl") ∈ truncate_to_recent
        [("u1", "foo-1.0.0.tar.gz"), ("u2", "foo-1.0.0.whl"), ("u3", "foo-2.0.1.tar.gz")] 5 :=
  (retention_version_completeness _ 5 (by decide)).1 ⟨[1, 0, 0], none⟩
    ⟨("u1", "foo-1.0.0.tar.gz"), by decide, by decide⟩ ("u2", "foo-1.0.0.whl")
    (by decide) (by decide)
